import Mathlib

/-!
Shallow embedding of the entity-matching scripts of the
latin-america-fishing-crime-reporting repository
(`scripts/search-content-for-match.py`, `scripts/scrape-plants.py`,
`scripts/scrape-citations.py`).

Python strings are modelled as `List Char`; pandas cell values that may be
NaN are modelled by `Val`.  The ASCII fragment of Python's `str.lower`,
`re` word characters and `str.strip` is used: all the scripts' literals and
all claims are ASCII.
-/

namespace FishScrape

/-- A pandas cell: either a string or the missing value NaN. -/
inductive Val where
  | str (s : List Char)
  | nan
deriving DecidableEq, Repr

/-- Python `str(cell)`: the string itself, or the literal `"nan"` for NaN
(`str(float('nan')) == 'nan'`). -/
def pyStr : Val → List Char
  | .str s => s
  | .nan => "nan".data

/-- Python `pd.isna(cell)` for our cell model. -/
def pyIsNa : Val → Bool
  | .str _ => false
  | .nan => true

/-- Python `str.lower` on one ASCII character (`Char.toLower` maps exactly
the range `A`-`Z`). -/
def lowerL (s : List Char) : List Char := s.map Char.toLower

/-- A regex word character (`\w` over ASCII): letter, digit or underscore. -/
def isWordChar (c : Char) : Bool := c.isAlphanum || c == '_'

/-- Word-character status of an optional adjacent character; a string edge
counts as non-word. -/
def wOpt : Option Char → Bool
  | none => false
  | some c => isWordChar c

/-- Python `re` word boundary `\b` between two adjacent positions: the
word-character status of the two sides differs. -/
def boundaryB (l r : Option Char) : Bool := wOpt l != wOpt r

/-- The pattern `\b` ++ escaped `pat` ++ `\b` matches at the current
position, where `prev` is the character just before the position and `s`
the rest of the subject string. -/
def wbAt (pat : List Char) (prev : Option Char) (s : List Char) : Bool :=
  pat.isPrefixOf s
    && boundaryB prev s.head?
    && boundaryB (if pat.isEmpty then prev else pat.getLast?) ((s.drop pat.length).head?)

/-- Scan of `re.search` for the word-bounded pattern: try every position. -/
def wbFrom (pat : List Char) : Option Char → List Char → Bool
  | prev, [] => wbAt pat prev []
  | prev, c :: rest => wbAt pat prev (c :: rest) || wbFrom pat (some c) rest

/-- `re.search(r'\b' + re.escape(pat) + r'\b', s)` is not `None`
(`re.escape` makes the entity name a literal). -/
def wbMatch (pat s : List Char) : Bool := wbFrom pat none s

/-- The per-pair matcher of `search_topics_in_content` (lines 67-73):
`re.search(r'\b' + re.escape(topic) + r'\b', str(content).lower())`, where
`topic` is the already lower-cased entity name. -/
def matchTest (topicLowered : List Char) (content : Val) : Bool :=
  wbMatch topicLowered (lowerL (pyStr content))

/-- Python's substring test `u in s` (used for `url not in current_links`). -/
def isSub (u : List Char) : List Char → Bool
  | [] => u.isEmpty
  | c :: rest => u.isPrefixOf (c :: rest) || isSub u rest

/-- `u` occurs as a contiguous segment of `s`. -/
def SubSeg (u s : List Char) : Prop := ∃ pre post, pre ++ u ++ post = s

/-- `', '`, the URL-list separator of the scripts. -/
def sep : List Char := [',', ' ']

/-- Python `sepStr.join(us)` for a two-element separator, written out
recursively. -/
def joinWith (s : List Char) : List (List Char) → List Char
  | [] => []
  | [u] => u
  | u :: v :: us => u ++ s ++ joinWith s (v :: us)

/-- `', '.join(urls)`. -/
def joinUrls : List (List Char) → List Char := joinWith sep

/-- Helper: prepend a character to the first group of a split result. -/
def consCell (c : Char) : List (List Char) → List (List Char)
  | [] => [[c]]
  | g :: gs => (c :: g) :: gs

/-- Split a string on the two-character separator `a` then `b`
(leftmost-first, non-overlapping), as Python `s.split(a + b)` does. -/
def split2 (a b : Char) : List Char → List (List Char)
  | [] => [[]]
  | [c] => [[c]]
  | c :: d :: rest =>
    if c = a ∧ d = b then [] :: split2 a b rest
    else consCell c (split2 a b (d :: rest))

/-- The comma-joined URL list read back as its entries (split on `', '`). -/
def splitSep : List Char → List (List Char) := split2 ',' ' '

/-- The merge step of `search_topics_in_content` (lines 76-85): given the
current `'Crime Report Links'` string and the freshly matched URLs, append
the URLs not already substring-contained in the current string; an empty
current string is replaced by the joined matches; an empty match list
changes nothing. -/
def mergeLinks (current : List Char) (ms : List (List Char)) : List Char :=
  if ms = [] then current
  else if current = [] then joinUrls ms
  else
    let newUrls := ms.filter (fun u => !(isSub u current))
    if newUrls = [] then current
    else current ++ sep ++ joinUrls newUrls

/-- The merge step of `search_vessels_in_content` (lines 126-135): as
`mergeLinks`, except that a current cell whose lower-casing is the literal
`"nan"` is treated like an empty cell. -/
def mergeVessels (current : List Char) (ms : List (List Char)) : List Char :=
  if ms = [] then current
  else if current ≠ [] ∧ lowerL current ≠ "nan".data then
    let newUrls := ms.filter (fun u => !(isSub u current))
    if newUrls = [] then current
    else current ++ sep ++ joinUrls newUrls
  else joinUrls ms

/-! ### `clean_company_name` (`scripts/scrape-plants.py`, lines 5-46) -/

/-- Strip a character class from both ends of a string. -/
def stripEnds (p : Char → Bool) (s : List Char) : List Char :=
  ((s.dropWhile p).reverse.dropWhile p).reverse

/-- Python `str.strip()` (ASCII whitespace core). -/
def stripWS : List Char → List Char := stripEnds Char.isWhitespace

/-- Member of the class stripped by `strip(', ')`. -/
def isCS (c : Char) : Bool := c == ',' || c == ' '

/-- Python `str.strip(', ')`. -/
def stripCS : List Char → List Char := stripEnds isCS

/-- The pattern `\b` ++ literal `tok` ++ `\b` matches at the current
position (`tok` is required nonempty; every suffix token is). -/
def matchesAt (tok : List Char) (prev : Option Char) (s : List Char) : Bool :=
  !tok.isEmpty && tok.isPrefixOf s && boundaryB prev s.head?
    && boundaryB tok.getLast? ((s.drop tok.length).head?)

/-- Fuelled scan of `re.sub(r'\b' + tok + r'\b', '', s)`: delete each
word-bounded occurrence, leftmost first, continuing after the match (the
empty replacement is not rescanned, and subsequent `\b` tests see the
original neighbouring characters, so `prev` becomes the token's last
character after a deletion). -/
def subWBF (tok : List Char) : Nat → Option Char → List Char → List Char
  | 0, _, s => s
  | fuel + 1, prev, s =>
    if matchesAt tok prev s then subWBF tok fuel tok.getLast? (s.drop tok.length)
    else
      match s with
      | [] => []
      | c :: rest => c :: subWBF tok fuel (some c) rest

/-- `re.sub(r'\b' + tok + r'\b', '', s)`; the fuel `s.length + 1` is enough
because every step consumes at least one character. -/
def subWB (tok s : List Char) : List Char := subWBF tok (s.length + 1) none s

/-- `re.sub(r'\b' + tok + r'$', '', s)`: delete a word-bounded occurrence
of `tok` at the very end of the string.  (`$` before a trailing newline
does not arise: the input is always `strip()`ped first.) -/
def subEnd (tok s : List Char) : List Char :=
  if tok.isEmpty then s
  else if tok.isSuffixOf s
      && boundaryB ((s.take (s.length - tok.length)).getLast?) tok.head? then
    s.take (s.length - tok.length)
  else s

/-- Skip up to and including the first `')'`, if any. -/
def dropToClose : List Char → Option (List Char)
  | [] => none
  | c :: r => if c = ')' then some r else dropToClose r

/-- Fuelled scan of `re.sub(r'\([^)]*\)', '', s)`: at each `'('`, if a
closing `')'` follows, delete through it; otherwise the regex cannot match
there and scanning moves on. -/
def rmParensF : Nat → List Char → List Char
  | 0, s => s
  | fuel + 1, s =>
    match s with
    | [] => []
    | c :: rest =>
      if c = '(' then
        match dropToClose rest with
        | some rest' => rmParensF fuel rest'
        | none => c :: rmParensF fuel rest
      else c :: rmParensF fuel rest

/-- `re.sub(r'\([^)]*\)', '', s)`. -/
def rmParens (s : List Char) : List Char := rmParensF s.length s

/-- `name.replace('"', '').replace("'", '')`. -/
def rmQuotes (s : List Char) : List Char :=
  s.filter (fun c => !(c == '"' || c == '\''))

/-- One legal-entity suffix pattern: word-bounded everywhere, or
word-bounded and anchored at the end of the string. -/
inductive SubPat where
  | wb (tok : List Char)
  | atEnd (tok : List Char)
deriving DecidableEq, Repr

/-- Apply one suffix substitution. -/
def applyPat (s : List Char) : SubPat → List Char
  | .wb tok => subWB tok s
  | .atEnd tok => subEnd tok s

/-- The ordered suffix list of `clean_company_name` (lines 22-32). -/
def suffixPats : List SubPat :=
  [ .atEnd "s.a.".data, .wb "s.a".data,
    .atEnd "s.a.c.".data, .wb "s.a.c".data,
    .atEnd "s.a. de c.v.".data, .wb "s.a. de c.v".data,
    .atEnd "s.r.l.".data, .wb "s.r.l".data,
    .atEnd "ltda.".data, .wb "ltda".data,
    .atEnd "s.a.p.i. de c.v.".data, .wb "s.a.p.i. de c.v".data,
    .atEnd "cia. ltda.".data, .wb "cia. ltda".data,
    .atEnd "s. de r.l. de c.v.".data, .wb "s. de r.l. de c.v".data,
    .atEnd "sa de cv".data, .wb "sa de cv".data ]

/-- The suffix-stripping loop (`for suffix in suffixes: name = re.sub(...)`). -/
def applySubs (s : List Char) : List Char := suffixPats.foldl applyPat s

/-- The cleaning pipeline on a nonempty string: lower-case and strip, strip
legal suffixes, remove parentheticals, remove quotes, strip `', '`. -/
def cleanCore (s : List Char) : List Char :=
  stripCS (rmQuotes (rmParens (applySubs (stripWS (lowerL s)))))

/-- `clean_company_name` (lines 5-46): NaN or empty input yields `""`. -/
def clean_company_name (v : Val) : List Char :=
  match v with
  | .nan => []
  | .str s => if s.isEmpty then [] else cleanCore s

/-! ### Tables and search functions (`search-content-for-match.py`) -/

/-- One citation record: the URL and the scraped page content.  (The `url`
column is taken as a string: a non-string URL cell would make the scripts'
`', '.join` raise, which no claim exercises.) -/
structure Cit where
  url : List Char
  content : Val
deriving DecidableEq, Repr

/-- One entity row: the name cell, the `'Crime Report Links'` cell, and the
tuple of all remaining columns, abstracted as `other`. -/
structure Row (α : Type) where
  name : Val
  links : Val
  other : α
deriving DecidableEq, Repr

/-- An entity table: whether the `'Crime Report Links'` column exists, and
the rows in order. -/
structure Frame (α : Type) where
  hasLinks : Bool
  rows : List (Row α)
deriving DecidableEq, Repr

/-- The inner loop (lines 67-73): URLs of the citations whose content
matches the lowered entity name, in citation order. -/
def matchingUrls (topicLowered : List Char) (cits : List Cit) : List (List Char) :=
  (cits.filter (fun c => matchTest topicLowered c.content)).map Cit.url

/-- `str(row['Crime Report Links']) if not pd.isna(...) else ''`. -/
def cellCur (v : Val) : List Char :=
  if pyIsNa v then [] else pyStr v

/-- Lines 76-85: the new value of the links cell in the topics variant
(no assignment happens when no URL matched). -/
def updateTopics (cell : Val) (ms : List (List Char)) : Val :=
  if ms = [] then cell else .str (mergeLinks (cellCur cell) ms)

/-- Lines 126-135: the new value of the links cell in the vessels, plants
and owners variants (with the `'nan'` guard on the current cell). -/
def updateVessels (cell : Val) (ms : List (List Char)) : Val :=
  if ms = [] then cell else .str (mergeVessels (cellCur cell) ms)

/-- Lines 58-85, one row of `search_topics_in_content`:
`row['Topic'].lower()` raises `AttributeError` on a NaN cell (there is no
`str(...)` guard in this variant, unlike its three siblings), modelled as
`Except.error`; an empty topic is skipped. -/
def searchTopicsRow (cits : List Cit) (r : Row α) : Except Unit (Row α) :=
  match r.name with
  | .nan => .error ()
  | .str s =>
    let topic := lowerL s
    if topic = [] then .ok r
    else .ok { r with links := updateTopics r.links (matchingUrls topic cits) }

/-- Lines 108-135, one row of `search_vessels_in_content`:
`str(row['Vessel name']).lower()`, skipping empty and `'nan'` names. -/
def searchVesselsRow (cits : List Cit) (r : Row α) : Row α :=
  let nm := lowerL (pyStr r.name)
  if nm = [] ∨ nm = "nan".data then r
  else { r with links := updateVessels r.links (matchingUrls nm cits) }

/-- `scrape-plants.py` lines 67-94, one row of `search_plants_in_content`:
the name is first normalised by `clean_company_name`; empty results are
skipped. -/
def searchPlantsRow (cits : List Cit) (r : Row α) : Row α :=
  let nm := clean_company_name r.name
  if nm = [] then r
  else { r with links := updateVessels r.links (matchingUrls nm cits) }

/-- Lines 44-46 / 62-64: add the `'Crime Report Links'` column, initialised
to empty strings, when it is missing. -/
def initRows (f : Frame α) : List (Row α) :=
  if f.hasLinks then f.rows else f.rows.map (fun r => { r with links := Val.str [] })

/-- Row-by-row traversal that stops at the first raised exception, as the
`for idx, row in ...iterrows()` loop does. -/
def mapExcept (f : Row α → Except Unit (Row α)) : List (Row α) → Except Unit (List (Row α))
  | [] => .ok []
  | r :: rs =>
    match f r with
    | .error e => .error e
    | .ok r' =>
      match mapExcept f rs with
      | .error e => .error e
      | .ok rs' => .ok (r' :: rs')

/-- `search_topics_in_content` on the whole table (the `df.copy()` of the
source is implicit: the embedding is pure and the input frame is a value). -/
def searchTopics (f : Frame α) (cits : List Cit) : Except Unit (Frame α) :=
  match mapExcept (searchTopicsRow cits) (initRows f) with
  | .error e => .error e
  | .ok rows => .ok ⟨true, rows⟩

/-- `search_vessels_in_content` on the whole table. -/
def searchVessels (f : Frame α) (cits : List Cit) : Frame α :=
  ⟨true, (initRows f).map (searchVesselsRow cits)⟩

/-- `search_plants_in_content` on the whole table. -/
def searchPlants (f : Frame α) (cits : List Cit) : Frame α :=
  ⟨true, (initRows f).map (searchPlantsRow cits)⟩

/-- Lines 208-235, one row of `search_vessel_owners_in_content`: the name
is `str(row['Owner Name']).lower()` when the `'Owner Name'` column exists
and `''` otherwise (`hasName` models that column's presence); empty and
`'nan'` names are skipped, and the merge is the vessels variant's. -/
def searchOwnersRow (hasName : Bool) (cits : List Cit) (r : Row α) : Row α :=
  let nm := if hasName then lowerL (pyStr r.name) else []
  if nm = [] ∨ nm = "nan".data then r
  else { r with links := updateVessels r.links (matchingUrls nm cits) }

/-- `search_vessel_owners_in_content` on the whole table. -/
def searchVesselOwners (hasName : Bool) (f : Frame α) (cits : List Cit) : Frame α :=
  ⟨true, (initRows f).map (searchOwnersRow hasName cits)⟩

/-! ### `scrape_url` (`scripts/scrape-citations.py`, lines 52-125) -/

/-- Outcome of `requests.get` plus HTML text extraction, abstracted: on
success the HTTP status, the text `soup.get_text(separator=' ')` yields
after script/style removal, and the resolved domain
`urlparse(response.url).netloc`; otherwise the exception that was raised. -/
inductive FetchResult where
  | success (status : Nat) (text : List Char) (domain : List Char)
  | timeout
  | tooManyRedirects
  | sslError (msg : List Char)
  | requestError (msg : List Char)
  | otherError (msg : List Char)
deriving DecidableEq, Repr

/-- Python `str.splitlines` (newline-only core model; the trailing line
break produces no empty final line). -/
def splitLines : List Char → List (List Char)
  | [] => []
  | c :: rest => if c = '\n' then [] :: splitLines rest else consCell c (splitLines rest)

/-- Lines 100-103: strip each line, split each on double spaces, strip the
phrases, drop empties, rejoin with single spaces. -/
def cleanText (t : List Char) : List Char :=
  let lines := (splitLines t).map stripWS
  let chunks := lines.flatMap (fun l => (split2 ' ' ' ' l).map stripWS)
  joinWith [' '] (chunks.filter (fun c => !c.isEmpty))

/-- Digits of the HTTP status code, as in `f"Error: HTTP {status_code}"`. -/
def natStr (n : Nat) : List Char := (toString n).data

/-- `scrape_url` (lines 52-125): every branch of the `try`/`except`
ladder returns a string; no branch re-raises. -/
def scrape_url : FetchResult → List Char
  | .success status text domain =>
    if status = 200 then
      "[Source: ".data ++ domain ++ "] ".data ++ (cleanText text).take 5000
    else "Error: HTTP ".data ++ natStr status
  | .timeout => "Error: Request timed out".data
  | .tooManyRedirects => "Error: Too many redirects".data
  | .sslError _ => "Error: SSL verification failed".data
  | .requestError m => "Error: ".data ++ m
  | .otherError m => "Unexpected error: ".data ++ m

/-! ### Helper lemmas: substrings and joined URL lists -/

theorem isPrefixOf_spec : ∀ (u s : List Char), u.isPrefixOf s = true ↔ ∃ t, u ++ t = s
  | [], s => by simp [List.isPrefixOf]
  | a :: u, [] => by simp [List.isPrefixOf]
  | a :: u, b :: s => by
    simp only [List.isPrefixOf, Bool.and_eq_true, beq_iff_eq, isPrefixOf_spec u s,
      List.cons_append, List.cons.injEq]
    constructor
    · rintro ⟨rfl, t, rfl⟩; exact ⟨t, rfl, rfl⟩
    · rintro ⟨t, rfl, rfl⟩; exact ⟨rfl, t, rfl⟩

theorem SubSeg.appendR {u s : List Char} (h : SubSeg u s) (t : List Char) :
    SubSeg u (s ++ t) := by
  obtain ⟨pre, post, rfl⟩ := h
  exact ⟨pre, post ++ t, by simp⟩

theorem SubSeg.appendL {u s : List Char} (h : SubSeg u s) (t : List Char) :
    SubSeg u (t ++ s) := by
  obtain ⟨pre, post, rfl⟩ := h
  exact ⟨t ++ pre, post, by simp⟩

theorem subSeg_self (u : List Char) : SubSeg u u := ⟨[], [], by simp⟩

theorem isSub_iff : ∀ (u s : List Char), isSub u s = true ↔ SubSeg u s
  | u, [] => by
    simp only [isSub, List.isEmpty_iff, SubSeg]
    constructor
    · rintro rfl; exact ⟨[], [], rfl⟩
    · rintro ⟨pre, post, h⟩
      rcases List.append_eq_nil.mp h with ⟨h1, h2⟩
      exact (List.append_eq_nil.mp h1).2
  | u, c :: rest => by
    simp only [isSub, Bool.or_eq_true, isPrefixOf_spec, isSub_iff u rest]
    constructor
    · rintro (⟨t, ht⟩ | ⟨pre, post, hp⟩)
      · exact ⟨[], t, by simpa using ht⟩
      · exact ⟨c :: pre, post, by rw [← hp]; simp⟩
    · rintro ⟨pre, post, h⟩
      cases pre with
      | nil => exact Or.inl ⟨post, by simpa using h⟩
      | cons c' pre' =>
        obtain ⟨rfl, h2⟩ := List.cons.injEq .. ▸ h
        exact Or.inr ⟨pre', post, h2⟩

theorem subSeg_joinUrls {u : List Char} : ∀ {ms : List (List Char)}, u ∈ ms →
    SubSeg u (joinUrls ms)
  | [], h => absurd h (List.not_mem_nil u)
  | [v], h => by
    rcases List.mem_singleton.mp h with rfl
    exact subSeg_self u
  | v :: w :: ms, h => by
    rcases List.mem_cons.mp h with rfl | h'
    · exact ⟨[], sep ++ joinUrls (w :: ms), by simp [joinUrls, joinWith]⟩
    · have h2 : SubSeg u (joinUrls (w :: ms)) := subSeg_joinUrls h'
      simpa [joinUrls, joinWith] using h2.appendL (v ++ sep)

/-- If everything in `ms` is already substring-contained in a nonempty
current list, the topics merge leaves the list unchanged. -/
theorem mergeLinks_eq_self {r : List Char} {ms : List (List Char)}
    (hr : r ≠ []) (h : ∀ u ∈ ms, isSub u r = true) : mergeLinks r ms = r := by
  unfold mergeLinks
  rcases eq_or_ne ms [] with rfl | hm
  · simp
  · have hnew : ms.filter (fun u => !(isSub u r)) = [] := by
      simp only [List.filter_eq_nil_iff, Bool.not_eq_eq_eq_not, Bool.not_true]
      intro u hu
      simp [h u hu]
    simp [hm, hr, hnew]

/-- C4 helper: every member of `ms` is substring-contained in the result
of the topics merge. -/
theorem isSub_mergeLinks {L : List Char} {ms : List (List Char)} {u : List Char}
    (hu : u ∈ ms) : isSub u (mergeLinks L ms) = true := by
  have hm : ms ≠ [] := by rintro rfl; cases hu
  unfold mergeLinks
  rcases eq_or_ne L [] with rfl | hL
  · simpa [hm, isSub_iff] using subSeg_joinUrls hu
  · by_cases hsub : isSub u L = true
    · rcases isSub_iff u L |>.mp hsub with hseg
      rcases eq_or_ne (ms.filter (fun u => !(isSub u L))) [] with hnew | hnew
      · simp [hm, hL, hnew, hsub]
      · simp only [hm, if_false, hL, hnew]
        rw [isSub_iff]
        simpa [List.append_assoc] using hseg.appendR (sep ++ joinUrls (ms.filter (fun u => !(isSub u L))))
    · have hmem : u ∈ ms.filter (fun u => !(isSub u L)) := by
        simp [List.mem_filter, hu, hsub]
      have hnew : ms.filter (fun u => !(isSub u L)) ≠ [] := by
        rintro h0; rw [h0] at hmem; cases hmem
      simp only [hm, if_false, hL, hnew]
      rw [isSub_iff]
      exact (subSeg_joinUrls hmem).appendL (L ++ sep)

/-- C4: the merge step of `search_topics_in_content` (lines 76-85) is
idempotent: for every entity's joined URL list and every match list,
merging the same match list a second time yields exactly the joined-list
result of merging it once. -/
theorem c4_merge_idempotent (L : List Char) (ms : List (List Char)) :
    mergeLinks (mergeLinks L ms) ms = mergeLinks L ms := by
  rcases eq_or_ne ms [] with rfl | hm
  · simp [mergeLinks]
  · rcases eq_or_ne (mergeLinks L ms) [] with hr | hr
    · rw [hr]
      have h2 : mergeLinks [] ms = joinUrls ms := by simp [mergeLinks, hm]
      rw [h2]
      rcases eq_or_ne L [] with rfl | hL
      · rw [← hr]; simp [mergeLinks, hm]
      · exfalso
        rcases eq_or_ne (ms.filter (fun u => !(isSub u L))) [] with hnew | hnew
        · have h3 : mergeLinks L ms = L := by simp [mergeLinks, hm, hL, hnew]
          exact hL (h3 ▸ hr)
        · have h3 : mergeLinks L ms
              = L ++ sep ++ joinUrls (ms.filter (fun u => !(isSub u L))) := by
            simp [mergeLinks, hm, hL, hnew]
          rw [h3] at hr
          exact hL (List.append_eq_nil.mp ((List.append_eq_nil.mp hr).1)).1
    · exact mergeLinks_eq_self hr (fun u hu => isSub_mergeLinks hu)

theorem split2_cons2 (a b c d : Char) (rest : List Char) :
    split2 a b (c :: d :: rest) =
      if c = a ∧ d = b then [] :: split2 a b rest
      else consCell c (split2 a b (d :: rest)) := rfl

theorem isSub_cons (u : List Char) (c : Char) (rest : List Char) :
    isSub u (c :: rest) = (u.isPrefixOf (c :: rest) || isSub u rest) := rfl

theorem split2_ne_nil (a b : Char) : ∀ s : List Char, split2 a b s ≠ []
  | [] => by simp [split2]
  | [c] => by simp [split2]
  | c :: d :: rest => by
    rw [split2_cons2]
    split
    · simp
    · cases split2 a b (d :: rest) with
      | nil => simp [consCell]
      | cons g gs => simp [consCell]

theorem consCell_append (c : Char) {X : List (List Char)} (hX : X ≠ [])
    (Y : List (List Char)) : consCell c (X ++ Y) = consCell c X ++ Y := by
  cases X with
  | nil => exact absurd rfl hX
  | cons g gs => simp [consCell]

theorem split2_sep_append (a b : Char) (hab : a ≠ b) :
    ∀ (A B : List Char), split2 a b (A ++ a :: b :: B) = split2 a b A ++ split2 a b B
  | [], B => by rw [List.nil_append, split2_cons2, if_pos ⟨rfl, rfl⟩]; rfl
  | [c], B => by
    rw [List.cons_append, List.nil_append, split2_cons2,
      if_neg (by rintro ⟨rfl, rfl⟩; exact hab rfl), split2_cons2, if_pos ⟨rfl, rfl⟩]
    rfl
  | c :: d :: A', B => by
    rw [List.cons_append, List.cons_append, split2_cons2]
    by_cases hcd : c = a ∧ d = b
    · rw [if_pos hcd, split2_sep_append a b hab A' B, split2_cons2, if_pos hcd]
      rfl
    · rw [if_neg hcd]
      have ih := split2_sep_append a b hab (d :: A') B
      rw [List.cons_append] at ih
      rw [ih, consCell_append c (split2_ne_nil a b (d :: A')) (split2 a b B),
        split2_cons2, if_neg hcd]

theorem split2_of_not_isSub (a b : Char) :
    ∀ s : List Char, isSub [a, b] s = false → split2 a b s = [s]
  | [], _ => rfl
  | [c], _ => rfl
  | c :: d :: rest, h => by
    rw [isSub_cons, Bool.or_eq_false_iff] at h
    obtain ⟨hpre, hrest⟩ := h
    have hcd : ¬(c = a ∧ d = b) := by
      rintro ⟨rfl, rfl⟩
      simp [List.isPrefixOf] at hpre
    rw [split2_cons2, if_neg hcd, split2_of_not_isSub a b (d :: rest) hrest, consCell]

theorem splitSep_joinUrls :
    ∀ ms : List (List Char), ms ≠ [] → (∀ u ∈ ms, isSub sep u = false) →
      splitSep (joinUrls ms) = ms
  | [], h, _ => absurd rfl h
  | [v], _, hsep => by
    simpa [joinUrls, joinWith, splitSep] using
      split2_of_not_isSub ',' ' ' v (hsep v (List.mem_singleton.mpr rfl))
  | v :: w :: ms, _, hsep => by
    have hv : isSub sep v = false := hsep v (List.mem_cons_self _ _)
    have ih := splitSep_joinUrls (w :: ms) (by simp)
      (fun u hu => hsep u (List.mem_cons_of_mem v hu))
    have hjoin : joinUrls (v :: w :: ms) = v ++ ',' :: ' ' :: joinUrls (w :: ms) := by
      simp [joinUrls, joinWith, sep]
    rw [hjoin, splitSep, split2_sep_append ',' ' ' (by decide) v (joinUrls (w :: ms))]
    rw [split2_of_not_isSub ',' ' ' v hv]
    rw [show split2 ',' ' ' (joinUrls (w :: ms)) = splitSep (joinUrls (w :: ms)) from rfl, ih]
    rfl

/-- C2 (amended): for a nonempty previously recorded list `L` and matched
URLs `ms` not containing the separator, the merged list's entries are
exactly `L`'s entries followed, in matcher-discovery order, by those URLs
of `ms` that are not substrings of `L`.  Every entry of `L` is kept and
the spec's `a.com`/`b.com` example holds; but deduplication is only the
substring test against `L`, so a URL of `ms` that is a substring of `L`
(even of a different entry) is dropped, and duplicates inside `ms`
survive. -/
theorem c2_merge_entries (L : List Char) (ms : List (List Char))
    (hL : L ≠ []) (hms : ∀ u ∈ ms, isSub sep u = false) :
    splitSep (mergeLinks L ms) = splitSep L ++ ms.filter (fun u => !(isSub u L)) := by
  rcases eq_or_ne ms [] with rfl | hm
  · simp [mergeLinks]
  · rcases eq_or_ne (ms.filter (fun u => !(isSub u L))) [] with hnew | hnew
    · have hq : mergeLinks L ms = L := by simp [mergeLinks, hm, hL, hnew]
      rw [hq, hnew, List.append_nil]
    · have hq : mergeLinks L ms
          = L ++ sep ++ joinUrls (ms.filter (fun u => !(isSub u L))) := by
        simp [mergeLinks, hm, hL, hnew]
      rw [hq]
      have hshape : L ++ sep ++ joinUrls (ms.filter (fun u => !(isSub u L)))
          = L ++ ',' :: ' ' :: joinUrls (ms.filter (fun u => !(isSub u L))) := by
        simp [sep]
      rw [hshape, splitSep, split2_sep_append ',' ' ' (by decide)]
      congr 1
      exact splitSep_joinUrls _ hnew
        (fun u hu => hms u (List.mem_of_mem_filter hu))

/-- C2 counterexample: with existing list `"http://a.com"` and the match
list `["http://b.com", "http://b.com"]` (one URL matched by two citation
rows), the merge emits the entry `http://b.com` twice — the produced
joined list has duplicate entries, contradicting the claim. -/
theorem c2_counterexample :
    mergeLinks "http://a.com".data ["http://b.com".data, "http://b.com".data]
      = "http://a.com, http://b.com, http://b.com".data ∧
    ¬ (splitSep (mergeLinks "http://a.com".data
        ["http://b.com".data, "http://b.com".data])).Nodup := by
  exact ⟨by decide, by decide⟩

/-- Witness for C2 (amended) at the spec's example. -/
theorem c2_witness :
    splitSep (mergeLinks "http://a.com".data ["http://b.com".data])
      = ["http://a.com".data, "http://b.com".data] := by
  have h := c2_merge_entries "http://a.com".data ["http://b.com".data]
    (by decide) (by decide)
  rw [h]; decide

/-! ### C1: the word-boundary matcher against the spec's bounded-occurrence
condition -/

/-- The character adjacent on the left of a position reached by skipping
`pre` starting with left context `prev`. -/
def lastOr (prev : Option Char) (pre : List Char) : Option Char :=
  pre.getLast?.or prev

theorem lastOr_cons (prev : Option Char) (c : Char) (pre : List Char) :
    lastOr prev (c :: pre) = lastOr (some c) pre := by
  cases pre with
  | nil => rfl
  | cons d pre' =>
    unfold lastOr
    rw [List.getLast?_cons_cons]
    cases h : (d :: pre').getLast? with
    | none => exact absurd (List.getLast?_eq_none_iff.mp h) (by simp)
    | some x => rfl

theorem isWordChar_toLower (c : Char) : isWordChar (Char.toLower c) = isWordChar c := by
  simp only [Char.toLower]
  by_cases h : c.toNat ≥ 65 ∧ c.toNat ≤ 90
  · rw [if_pos h]
    obtain ⟨h1, h2⟩ := h
    obtain ⟨n, hn⟩ : ∃ n, c.toNat = n := ⟨_, rfl⟩
    have hc : c = Char.ofNat n := by rw [← hn, Char.ofNat_toNat]
    rw [hn] at h1 h2
    subst hc
    rw [hn]
    interval_cases n <;> decide
  · rw [if_neg h]

theorem boundaryB_word_right {l : Option Char} {w : Char} (hw : isWordChar w = true) :
    boundaryB l (some w) = !wOpt l := by
  simp [boundaryB, wOpt, hw]

theorem boundaryB_word_left {r : Option Char} {w : Char} (hw : isWordChar w = true) :
    boundaryB (some w) r = !wOpt r := by
  simp [boundaryB, wOpt, hw]

theorem wOpt_map_toLower (o : Option Char) :
    wOpt (o.map Char.toLower) = false ↔ ∀ c, o = some c → isWordChar c = false := by
  cases o with
  | none => simp [wOpt]
  | some c => simp [wOpt, isWordChar_toLower]

theorem wbAt_iff {pat : List Char} (hp : pat ≠ []) (prev : Option Char) (s : List Char) :
    wbAt pat prev s = true ↔
      ∃ post, s = pat ++ post ∧ boundaryB prev pat.head? = true ∧
        boundaryB pat.getLast? post.head? = true := by
  unfold wbAt
  rw [if_neg (by simpa [List.isEmpty_iff] using hp)]
  rw [Bool.and_eq_true, Bool.and_eq_true]
  constructor
  · rintro ⟨⟨hpre, hb1⟩, hb2⟩
    obtain ⟨post, hpost⟩ := (isPrefixOf_spec pat s).mp hpre
    have hor : (pat ++ post).head? = pat.head? := by
      cases pat with
      | nil => exact absurd rfl hp
      | cons a t => simp
    refine ⟨post, hpost.symm, ?_, ?_⟩
    · rw [← hpost, hor] at hb1; exact hb1
    · rw [← hpost, List.drop_left] at hb2; exact hb2
  · rintro ⟨post, rfl, hb1, hb2⟩
    have hor : (pat ++ post).head? = pat.head? := by
      cases pat with
      | nil => exact absurd rfl hp
      | cons a t => simp
    refine ⟨⟨(isPrefixOf_spec pat (pat ++ post)).mpr ⟨post, rfl⟩, ?_⟩, ?_⟩
    · rw [hor]; exact hb1
    · rw [List.drop_left]; exact hb2

theorem wbFrom_iff {pat : List Char} (hp : pat ≠ []) :
    ∀ (prev : Option Char) (s : List Char),
      wbFrom pat prev s = true ↔
        ∃ pre post, s = pre ++ pat ++ post ∧
          boundaryB (lastOr prev pre) pat.head? = true ∧
          boundaryB pat.getLast? post.head? = true
  | prev, [] => by
    show wbAt pat prev [] = true ↔ _
    rw [wbAt_iff hp]
    constructor
    · rintro ⟨post, hpost, _, _⟩
      exact absurd (List.append_eq_nil.mp hpost.symm).1 hp
    · rintro ⟨pre, post, hs, _, _⟩
      exact absurd (List.append_eq_nil.mp (List.append_eq_nil.mp hs.symm).1).2 hp
  | prev, c :: rest => by
    show (wbAt pat prev (c :: rest) || wbFrom pat (some c) rest) = true ↔ _
    rw [Bool.or_eq_true, wbAt_iff hp, wbFrom_iff hp (some c) rest]
    constructor
    · rintro (⟨post, hpost, hb1, hb2⟩ | ⟨pre', post, hrest, hb1, hb2⟩)
      · exact ⟨[], post, by simpa using hpost, by simpa [lastOr] using hb1, hb2⟩
      · exact ⟨c :: pre', post, by simp [hrest], by rwa [lastOr_cons], hb2⟩
    · rintro ⟨pre, post, hs, hb1, hb2⟩
      cases pre with
      | nil =>
        refine Or.inl ⟨post, by simpa using hs, ?_, hb2⟩
        simpa [lastOr] using hb1
      | cons c' pre' =>
        simp only [List.cons_append, List.cons.injEq] at hs
        obtain ⟨rfl, hrest⟩ := hs
        exact Or.inr ⟨pre', post, hrest, by rwa [lastOr_cons] at hb1, hb2⟩

/-- Modelled from the claim's words (spec §8), as the refinement target for
the matcher: the entity name `E`, compared case-insensitively, occurs in
the content `C` bounded on both sides by non-word characters or string
edges. -/
def specBounded (E C : List Char) : Prop :=
  ∃ pre mid post, C = pre ++ mid ++ post ∧ lowerL mid = lowerL E ∧
    (∀ c, pre.getLast? = some c → isWordChar c = false) ∧
    (∀ c, post.head? = some c → isWordChar c = false)

/-- C1 (amended): for entity names that begin and end with word
characters, the matcher of lines 67-73 reports a match iff the name
occurs, case-insensitively, bounded on both sides by non-word characters
or string edges.  (Without that restriction the two sides differ: a name
with a non-word edge character needs an adjacent *word* character under
the regex `\b` semantics — see the counterexample.) -/
theorem c1_matcher_boundary (E C : List Char)
    (h1 : ∃ c, E.head? = some c ∧ isWordChar c = true)
    (h2 : ∃ c, E.getLast? = some c ∧ isWordChar c = true) :
    (wbMatch (lowerL E) (lowerL C) = true ↔ specBounded E C) := by
  obtain ⟨a, ha, hwa⟩ := h1
  obtain ⟨z, hz, hwz⟩ := h2
  have hE : E ≠ [] := by rintro rfl; simp at ha
  have hpat : lowerL E ≠ [] := by
    simpa [lowerL] using hE
  have hpa : (lowerL E).head? = some (Char.toLower a) := by
    rw [lowerL, List.head?_map, ha]; rfl
  have hpz : (lowerL E).getLast? = some (Char.toLower z) := by
    rw [lowerL, List.getLast?_map, hz]; rfl
  have hwa' : isWordChar (Char.toLower a) = true := by rw [isWordChar_toLower]; exact hwa
  have hwz' : isWordChar (Char.toLower z) = true := by rw [isWordChar_toLower]; exact hwz
  rw [wbMatch, wbFrom_iff hpat]
  constructor
  · rintro ⟨pre, post, hs, hb1, hb2⟩
    rw [hpa, boundaryB_word_right hwa', Bool.not_eq_true'] at hb1
    rw [hpz, boundaryB_word_left hwz', Bool.not_eq_true'] at hb2
    rw [show lowerL C = List.map Char.toLower C from rfl] at hs
    rw [List.map_eq_append_iff] at hs
    obtain ⟨l₁, post₀, hC, hl₁, hpost₀⟩ := hs
    rw [List.map_eq_append_iff] at hl₁
    obtain ⟨pre₀, mid₀, hl₁C, hpre₀, hmid₀⟩ := hl₁
    refine ⟨pre₀, mid₀, post₀, by rw [hC, hl₁C], hmid₀, ?_, ?_⟩
    · rw [← wOpt_map_toLower, ← List.getLast?_map]
      rw [show List.map Char.toLower pre₀ = pre from hpre₀]
      rw [lastOr] at hb1
      rwa [Option.or_none] at hb1
    · rw [← wOpt_map_toLower, ← List.head?_map]
      rwa [show List.map Char.toLower post₀ = post from hpost₀]
  · rintro ⟨pre₀, mid₀, post₀, rfl, hmid, hbpre, hbpost⟩
    refine ⟨lowerL pre₀, lowerL post₀, ?_, ?_, ?_⟩
    · show List.map Char.toLower _ = _
      rw [List.map_append, List.map_append]
      rw [show List.map Char.toLower mid₀ = lowerL mid₀ from rfl, hmid]
      rfl
    · rw [hpa, boundaryB_word_right hwa', Bool.not_eq_true']
      rw [lastOr, Option.or_none, show lowerL pre₀ = List.map Char.toLower pre₀ from rfl,
        List.getLast?_map, wOpt_map_toLower]
      exact hbpre
    · rw [hpz, boundaryB_word_left hwz', Bool.not_eq_true']
      rw [show lowerL post₀ = List.map Char.toLower post₀ from rfl,
        List.head?_map, wOpt_map_toLower]
      exact hbpost

/-- C1 counterexample: for the entity name `"-a"` and content `"-a"` the
name occurs bounded by string edges on both sides, yet the matcher reports
no match (the regex `\b` before a non-word character demands an adjacent
word character, which a string edge is not). -/
theorem c1_counterexample :
    ¬ (wbMatch (lowerL "-a".data) (lowerL "-a".data) = true ↔
        specBounded "-a".data "-a".data) := by
  intro h
  have hspec : specBounded "-a".data "-a".data :=
    ⟨[], "-a".data, [], by simp, rfl, by simp, by simp⟩
  exact absurd (h.mpr hspec) (by decide)

/-- Witness for C1 (amended) at the spec's example: `"Don Pepe"` in
`"Vessel Don Pepe departed"`. -/
theorem c1_witness :
    specBounded "Don Pepe".data "Vessel Don Pepe departed".data := by
  have h := c1_matcher_boundary "Don Pepe".data "Vessel Don Pepe departed".data
    ⟨'D', by decide, by decide⟩ ⟨'e', by decide, by decide⟩
  exact h.mp (by decide)

/-! ### C5: `clean_company_name` and idempotence -/

theorem dropWhile_exists (p : Char → Bool) : ∀ l : List Char, ∃ t, t ++ l.dropWhile p = l
  | [] => ⟨[], rfl⟩
  | c :: l => by
    rw [List.dropWhile_cons]
    split
    · obtain ⟨t, ht⟩ := dropWhile_exists p l
      exact ⟨c :: t, by rw [List.cons_append, ht]⟩
    · exact ⟨[], rfl⟩

theorem mem_of_mem_dropW {p : Char → Bool} {x : Char} {l : List Char}
    (h : x ∈ l.dropWhile p) : x ∈ l := by
  obtain ⟨t, ht⟩ := dropWhile_exists p l
  rw [← ht]
  exact List.mem_append_right t h

theorem mem_stripEnds {p : Char → Bool} {x : Char} {s : List Char}
    (h : x ∈ stripEnds p s) : x ∈ s := by
  unfold stripEnds at h
  rw [List.mem_reverse] at h
  have h2 := mem_of_mem_dropW h
  rw [List.mem_reverse] at h2
  exact mem_of_mem_dropW h2

theorem mem_dropToClose {x : Char} :
    ∀ {s r : List Char}, dropToClose s = some r → x ∈ r → x ∈ s
  | [], r, h, _ => by simp [dropToClose] at h
  | c :: s, r, h, hx => by
    rw [dropToClose] at h
    split at h
    · cases h; exact List.mem_cons_of_mem c hx
    · exact List.mem_cons_of_mem c (mem_dropToClose h hx)

theorem mem_rmParensF {x : Char} :
    ∀ (fuel : Nat) (s : List Char), x ∈ rmParensF fuel s → x ∈ s
  | 0, _, h => h
  | fuel + 1, [], h => by simp [rmParensF] at h
  | fuel + 1, c :: rest, h => by
    rw [rmParensF] at h
    split at h
    · split at h
      · exact List.mem_cons_of_mem c (mem_dropToClose (by assumption) (mem_rmParensF fuel _ h))
      · rcases List.mem_cons.mp h with rfl | h'
        · exact List.mem_cons_self ..
        · exact List.mem_cons_of_mem c (mem_rmParensF fuel _ h')
    · rcases List.mem_cons.mp h with rfl | h'
      · exact List.mem_cons_self ..
      · exact List.mem_cons_of_mem c (mem_rmParensF fuel _ h')

theorem mem_rmParens {x : Char} {s : List Char} (h : x ∈ rmParens s) : x ∈ s :=
  mem_rmParensF s.length s h

theorem mem_subWBF {tok : List Char} {x : Char} :
    ∀ (fuel : Nat) (prev : Option Char) (s : List Char), x ∈ subWBF tok fuel prev s → x ∈ s
  | 0, _, _, h => h
  | fuel + 1, prev, s, h => by
    simp only [subWBF] at h
    split at h
    · exact List.mem_of_mem_drop (mem_subWBF fuel _ _ h)
    · cases s with
      | nil => simp at h
      | cons c rest =>
        rcases List.mem_cons.mp h with rfl | h'
        · exact List.mem_cons_self ..
        · exact List.mem_cons_of_mem c (mem_subWBF fuel _ _ h')

theorem mem_applyPat {x : Char} {s : List Char} :
    ∀ p : SubPat, x ∈ applyPat s p → x ∈ s := by
  intro p h
  cases p with
  | wb tok =>
    have h' : x ∈ subWBF tok (s.length + 1) none s := h
    exact mem_subWBF (s.length + 1) none s h'
  | atEnd tok =>
    have h' : x ∈ subEnd tok s := h
    unfold subEnd at h'
    split at h'
    · exact h'
    · split at h'
      · exact List.mem_of_mem_take h'
      · exact h'

theorem mem_foldl_applyPat {x : Char} :
    ∀ (pats : List SubPat) (s : List Char), x ∈ pats.foldl applyPat s → x ∈ s
  | [], _, h => h
  | p :: pats, s, h => mem_applyPat p (mem_foldl_applyPat pats _ h)

theorem mem_applySubs {x : Char} {s : List Char} (h : x ∈ applySubs s) : x ∈ s :=
  mem_foldl_applyPat suffixPats s h

theorem toLower_toLower (c : Char) : Char.toLower (Char.toLower c) = Char.toLower c := by
  by_cases h : c.toNat ≥ 65 ∧ c.toNat ≤ 90
  · have hlow : Char.toLower c = Char.ofNat (c.toNat + 32) := by
      simp only [Char.toLower]; rw [if_pos h]
    rw [hlow]
    obtain ⟨h1, h2⟩ := h
    obtain ⟨n, hn⟩ : ∃ n, c.toNat = n := ⟨_, rfl⟩
    rw [hn] at h1 h2 ⊢
    interval_cases n <;> decide
  · have hlow : Char.toLower c = c := by
      simp only [Char.toLower]; rw [if_neg h]
    rw [hlow, hlow]

theorem lowerL_eq_self {l : List Char} (h : ∀ x ∈ l, Char.toLower x = x) :
    lowerL l = l := by
  unfold lowerL
  induction l with
  | nil => rfl
  | cons c l ih =>
    rw [List.map_cons, h c (List.mem_cons_self ..),
      ih fun x hx => h x (List.mem_cons_of_mem _ hx)]

theorem cleanCore_toLower_fixed {x : Char} {s : List Char} (h : x ∈ cleanCore s) :
    Char.toLower x = x := by
  unfold cleanCore at h
  have h1 := mem_stripEnds h
  have h2 := (List.mem_filter.mp h1).1
  have h3 := mem_rmParens h2
  have h4 := mem_applySubs h3
  have h5 := mem_stripEnds h4
  obtain ⟨d, _, rfl⟩ := List.mem_map.mp h5
  exact toLower_toLower d

theorem cleanCore_noQuote {x : Char} {s : List Char} (h : x ∈ cleanCore s) :
    (!(x == '"' || x == '\'')) = true := by
  unfold cleanCore at h
  exact (List.mem_filter.mp (mem_stripEnds h)).2

theorem dropWhile_head_false (p : Char → Bool) :
    ∀ (l : List Char) (x : Char), (l.dropWhile p).head? = some x → p x = false
  | [], x => by simp
  | c :: l, x => by
    rw [List.dropWhile_cons]
    split
    · exact dropWhile_head_false p l x
    · next hpc =>
      intro h
      obtain rfl : c = x := by simpa using h
      simpa using hpc

theorem dropWhile_eq_self_of_head {p : Char → Bool} {l : List Char}
    (h : ∀ x, l.head? = some x → p x = false) : l.dropWhile p = l := by
  cases l with
  | nil => rfl
  | cons c l => rw [List.dropWhile_cons, if_neg (by simp [h c rfl])]

theorem stripEnds_idem (p : Char → Bool) (s : List Char) :
    stripEnds p (stripEnds p s) = stripEnds p s := by
  have hXdef : stripEnds p s = ((s.dropWhile p).reverse.dropWhile p).reverse := rfl
  obtain ⟨w, hw⟩ := dropWhile_exists p (s.dropWhile p).reverse
  have hpre : s.dropWhile p
      = ((s.dropWhile p).reverse.dropWhile p).reverse ++ w.reverse := by
    rw [← List.reverse_append, hw, List.reverse_reverse]
  have h1 : (stripEnds p s).dropWhile p = stripEnds p s := by
    apply dropWhile_eq_self_of_head
    intro x hx
    rw [hXdef] at hx
    have hsx : (s.dropWhile p).head? = some x := by
      rw [hpre, List.head?_append, hx, Option.or_some]
    exact dropWhile_head_false p s x hsx
  have h2 : ((s.dropWhile p).reverse.dropWhile p).dropWhile p
      = (s.dropWhile p).reverse.dropWhile p := by
    apply dropWhile_eq_self_of_head
    exact fun x hx => dropWhile_head_false p (s.dropWhile p).reverse x hx
  show (((stripEnds p s).dropWhile p).reverse.dropWhile p).reverse = stripEnds p s
  rw [h1, hXdef, List.reverse_reverse, h2]

theorem stripCS_cleanCore (s : List Char) : stripCS (cleanCore s) = cleanCore s :=
  stripEnds_idem isCS _

/-- C5 (amended): cleaning is idempotent exactly when the suffix-stripping,
parenthetical-removal and whitespace-strip phases leave the cleaned result
unchanged; the quote-removal, lower-casing and `strip(', ')` phases always
do.  In general idempotence fails: a removal can create a fresh suffix
occurrence that only a second pass strips (see the counterexample). -/
theorem clean_str (s : List Char) :
    clean_company_name (.str s) = if s.isEmpty then [] else cleanCore s := rfl

theorem clean_str_mem {x : Char} {s : List Char}
    (h : x ∈ clean_company_name (.str s)) : x ∈ cleanCore s := by
  rw [clean_str] at h
  split at h
  · exact absurd h (by simp)
  · exact h

theorem c5_clean_conditional (s : List Char)
    (h1 : applySubs (clean_company_name (.str s)) = clean_company_name (.str s))
    (h2 : rmParens (clean_company_name (.str s)) = clean_company_name (.str s))
    (h3 : stripWS (clean_company_name (.str s)) = clean_company_name (.str s)) :
    clean_company_name (.str (clean_company_name (.str s)))
      = clean_company_name (.str s) := by
  rcases eq_or_ne (clean_company_name (.str s)) [] with hcemp | hcne
  · rw [hcemp]; rfl
  · have hstep : clean_company_name (.str (clean_company_name (.str s)))
        = cleanCore (clean_company_name (.str s)) := by
      rw [clean_str (clean_company_name (.str s)),
        if_neg (by simpa [List.isEmpty_iff] using hcne)]
    rw [hstep]
    have hlower : lowerL (clean_company_name (.str s)) = clean_company_name (.str s) :=
      lowerL_eq_self fun x hx => cleanCore_toLower_fixed (clean_str_mem hx)
    have hquotes : rmQuotes (clean_company_name (.str s)) = clean_company_name (.str s) :=
      List.filter_eq_self.mpr fun x hx => cleanCore_noQuote (clean_str_mem hx)
    have hstrip : stripCS (clean_company_name (.str s)) = clean_company_name (.str s) := by
      rw [clean_str s]
      split
      · rfl
      · exact stripCS_cleanCore s
    unfold cleanCore
    rw [hlower, h3, h1, h2, hquotes, hstrip]

/-- C5 counterexample: `clean_company_name` is not idempotent.  On
`"lt(x)da"` the parenthetical removal produces `"ltda"`, and cleaning that
again strips it as a legal suffix, yielding `""`. -/
theorem c5_counterexample :
    clean_company_name (.str (clean_company_name (.str "lt(x)da".data)))
      ≠ clean_company_name (.str "lt(x)da".data) := by decide

set_option maxRecDepth 8000 in
/-- Witness for C5 (amended) at a name none of whose phases re-fire. -/
theorem c5_witness :
    clean_company_name (.str (clean_company_name (.str "acme foods".data)))
      = clean_company_name (.str "acme foods".data) :=
  c5_clean_conditional "acme foods".data (by decide) (by decide) (by decide)

/-! ### C6-C10: skipping, NaN content, the error markers, the success
format and the frame conditions -/

/-- C6: the code slip in `search_topics_in_content`.  A row whose `Topic`
cell is NaN makes `row['Topic'].lower()` raise `AttributeError` (no
`str(...)` guard, unlike the three sibling functions), so the row is not
skipped — the whole search aborts.  The vessels variant, whose guard is
`str(row[...]).lower()` plus a `'nan'` test, does skip such a row and
leaves it unchanged. -/
theorem c6_nan_topic_raises :
    searchTopics (⟨true, [⟨Val.nan, Val.str [], ()⟩]⟩ : Frame Unit) [] = .error () ∧
    searchVesselsRow [] (⟨Val.nan, Val.str [], ()⟩ : Row Unit)
      = ⟨Val.nan, Val.str [], ()⟩ := by
  exact ⟨rfl, by decide⟩

/-- A convenient unfolding of `searchTopicsRow` at a string-named row. -/
theorem searchTopicsRow_str (cits : List Cit) (s : List Char) (links : Val) (o : α) :
    searchTopicsRow cits ⟨.str s, links, o⟩
      = if lowerL s = [] then .ok ⟨.str s, links, o⟩
        else .ok ⟨.str s, updateTopics links (matchingUrls (lowerL s) cits), o⟩ := rfl

/-- C7: missing citation content is fed to the matcher as the literal
string `"nan"`, and the whole-word test still runs on it; a topic
literally named `"nan"` passes the skip guard, matches every citation
whose content is NaN, and therefore collects each such citation's URL in
its matched list, with the links cell updated from that list. -/
theorem c7_nan_content (cits : List Cit) (links : Val) (o : Unit) :
    pyStr Val.nan = "nan".data ∧
    (∀ c : Cit, c.content = .nan → matchTest "nan".data c.content = true) ∧
    searchTopicsRow cits (⟨Val.str "nan".data, links, o⟩ : Row Unit)
      = .ok ⟨Val.str "nan".data,
          updateTopics links (matchingUrls "nan".data cits), o⟩ ∧
    (∀ c ∈ cits, c.content = .nan → c.url ∈ matchingUrls "nan".data cits) := by
  have hlow : lowerL "nan".data = "nan".data := by decide
  refine ⟨rfl, ?_, ?_, ?_⟩
  · intro c hc
    rw [hc]; decide
  · rw [searchTopicsRow_str, hlow, if_neg (by decide)]
  · intro c hc hcn
    unfold matchingUrls
    exact List.mem_map.mpr
      ⟨c, List.mem_filter.mpr ⟨hc, by rw [hcn]; decide⟩, rfl⟩

/-- Witness for C7 at one missing-content citation. -/
theorem c7_witness :
    searchTopicsRow [⟨"u".data, Val.nan⟩] (⟨Val.str "nan".data, Val.str [], ()⟩ : Row Unit)
      = .ok ⟨Val.str "nan".data, Val.str "u".data, ()⟩ := by
  have h := c7_nan_content [⟨"u".data, Val.nan⟩] (Val.str []) ()
  rw [h.2.2.1]
  exact congrArg Except.ok (by decide)

/-- C8 (amended): `scrape_url` is a total function of the fetch outcome —
every failure is returned as a short textual marker, never re-raised; a
timeout yields exactly `"Error: Request timed out"`; and a citation whose
content is that marker contributes no match for any entity whose
(lowered) name does not occur word-bounded in the marker.  (An entity
named `"error"`, `"request"` or `"timed"` does match — the counterexample
refutes the claim's `no matches to any entity`.) -/
theorem c8_error_marker (nm : List Char) (cits : List Cit)
    (h : wbMatch (lowerL nm) (lowerL "Error: Request timed out".data) = false) :
    scrape_url .timeout = "Error: Request timed out".data ∧
    ∀ c ∈ cits, c.content = .str (scrape_url .timeout) →
      c ∉ cits.filter (fun c => matchTest (lowerL nm) c.content) := by
  refine ⟨rfl, ?_⟩
  intro c _ hcont hmem
  have hpred := (List.mem_filter.mp hmem).2
  rw [hcont] at hpred
  have hpred' : wbMatch (lowerL nm) (lowerL "Error: Request timed out".data) = true := hpred
  rw [h] at hpred'
  cases hpred'

/-- C8 counterexample: the timeout marker does contribute a match — the
entity named `"error"` matches the marker text word-bounded, and the
topics search appends the citation's URL for it. -/
theorem c8_counterexample :
    matchTest (lowerL "error".data) (.str (scrape_url .timeout)) = true ∧
    searchTopicsRow [⟨"u".data, .str (scrape_url .timeout)⟩]
        (⟨Val.str "error".data, Val.str [], ()⟩ : Row Unit)
      = .ok ⟨Val.str "error".data, Val.str "u".data, ()⟩ := by
  refine ⟨by decide, ?_⟩
  rw [searchTopicsRow_str, if_neg (by decide)]
  exact congrArg Except.ok (by decide)

/-- Witness for C8 (amended) at an entity absent from the marker. -/
theorem c8_witness :
    scrape_url .timeout = "Error: Request timed out".data ∧
    (⟨"u".data, .str (scrape_url .timeout)⟩ : Cit) ∉
      ([⟨"u".data, .str (scrape_url .timeout)⟩] : List Cit).filter
        (fun c => matchTest (lowerL "acme".data) c.content) := by
  have h := c8_error_marker "acme".data [⟨"u".data, .str (scrape_url .timeout)⟩] (by decide)
  exact ⟨h.1, h.2 _ (List.mem_singleton.mpr rfl) rfl⟩

/-- C9: a successful HTTP-200 fetch returns exactly the resolved-domain
prefix `"[Source: <domain>] "` followed by a prefix of the cleaned page
text (script/style stripped and whitespace collapsed are abstracted into
`cleanText`) of length at most 5000. -/
theorem c9_success_budget (text domain : List Char) :
    ∃ t, scrape_url (.success 200 text domain)
        = "[Source: ".data ++ domain ++ "] ".data ++ t ∧
      t.length ≤ 5000 ∧ ∃ rest, t ++ rest = cleanText text := by
  refine ⟨(cleanText text).take 5000, rfl, ?_, (cleanText text).drop 5000,
    List.take_append_drop ..⟩
  exact List.length_take_le ..

/-- The per-row frame condition: all columns except the links cell agree. -/
def framePres (r r' : Row α) : Prop := r'.name = r.name ∧ r'.other = r.other

theorem searchPlantsRow_frame (cits : List Cit) (r : Row α) :
    (searchPlantsRow cits r).name = r.name ∧ (searchPlantsRow cits r).other = r.other := by
  unfold searchPlantsRow
  by_cases hnm : clean_company_name r.name = []
  · simp [hnm]
  · simp [hnm]

theorem searchVesselsRow_frame (cits : List Cit) (r : Row α) :
    (searchVesselsRow cits r).name = r.name ∧ (searchVesselsRow cits r).other = r.other := by
  unfold searchVesselsRow
  by_cases h : lowerL (pyStr r.name) = [] ∨ lowerL (pyStr r.name) = "nan".data
  · simp [h]
  · simp [h]

theorem searchOwnersRow_frame (hasName : Bool) (cits : List Cit) (r : Row α) :
    (searchOwnersRow hasName cits r).name = r.name ∧
    (searchOwnersRow hasName cits r).other = r.other := by
  cases hasName with
  | false =>
    have hr : searchOwnersRow false cits r = r := by simp [searchOwnersRow]
    rw [hr]; exact ⟨rfl, rfl⟩
  | true =>
    have hr : searchOwnersRow true cits r = searchVesselsRow cits r := rfl
    rw [hr]; exact searchVesselsRow_frame cits r

/-- Any row transformation that keeps the name and other columns yields the
frame property through the column-initialisation step. -/
theorem frame_of_preserving (g : Row α → Row α)
    (hg : ∀ r : Row α, (g r).name = r.name ∧ (g r).other = r.other) (f : Frame α) :
    List.Forall₂ framePres f.rows ((initRows f).map g) ∧
    (f.hasLinks = false →
      (initRows f).map g = f.rows.map (fun r => g { r with links := Val.str [] })) := by
  obtain ⟨hasL, rows⟩ := f
  cases hasL with
  | true =>
    refine ⟨?_, fun hf => by cases hf⟩
    show List.Forall₂ _ rows (rows.map g)
    rw [List.forall₂_map_right_iff]
    exact List.forall₂_same.mpr fun r _ => hg r
  | false =>
    constructor
    · show List.Forall₂ _ rows ((rows.map (fun r => { r with links := Val.str [] })).map g)
      rw [List.map_map, List.forall₂_map_right_iff]
      exact List.forall₂_same.mpr fun r _ => hg { r with links := Val.str [] }
    · intro _
      show (rows.map (fun r => { r with links := Val.str [] })).map g = _
      rw [List.map_map]
      rfl

theorem mapExcept_ok {f : Row α → Except Unit (Row α)} :
    ∀ (l : List (Row α)) {l' : List (Row α)}, mapExcept f l = .ok l' →
      List.Forall₂ (fun a b => f a = .ok b) l l'
  | [], l', h => by
    injection h with h2
    subst h2
    exact List.Forall₂.nil
  | r :: rs, l', h => by
    rw [mapExcept] at h
    split at h
    · exact Except.noConfusion h
    · split at h
      · exact Except.noConfusion h
      · injection h with h2
        subst h2
        exact List.Forall₂.cons (by assumption) (mapExcept_ok rs (by assumption))

theorem searchTopicsRow_frame (cits : List Cit) (r r' : Row α)
    (h : searchTopicsRow cits r = .ok r') :
    r'.name = r.name ∧ r'.other = r.other := by
  obtain ⟨nm, links, o⟩ := r
  cases nm with
  | nan => exact Except.noConfusion h
  | str s =>
    rw [searchTopicsRow_str] at h
    split at h
    · injection h with h2
      subst h2
      exact ⟨rfl, rfl⟩
    · injection h with h2
      subst h2
      exact ⟨rfl, rfl⟩

/-- C10 (amended): the vessels, plants and owners search functions return
a frame with the same rows in the same order, every column other than
`'Crime Report Links'` unchanged in every row, the links column present
afterwards and initialised to empty strings when it was missing; the
input frame itself is untouched (the embedding is pure, mirroring the
`df.copy()` each function begins with).  The topics variant satisfies the
same frame property whenever it returns at all; on a row whose name cell
is NaN it raises instead of returning a frame (see the counterexample and
C6). -/
theorem c10_frame_all (α : Type) (f : Frame α) (cits : List Cit) (hasName : Bool) :
    ((searchVessels f cits).hasLinks = true ∧
      List.Forall₂ framePres f.rows (searchVessels f cits).rows ∧
      (f.hasLinks = false → (searchVessels f cits).rows
        = f.rows.map (fun r => searchVesselsRow cits { r with links := Val.str [] }))) ∧
    ((searchPlants f cits).hasLinks = true ∧
      List.Forall₂ framePres f.rows (searchPlants f cits).rows ∧
      (f.hasLinks = false → (searchPlants f cits).rows
        = f.rows.map (fun r => searchPlantsRow cits { r with links := Val.str [] }))) ∧
    ((searchVesselOwners hasName f cits).hasLinks = true ∧
      List.Forall₂ framePres f.rows (searchVesselOwners hasName f cits).rows ∧
      (f.hasLinks = false → (searchVesselOwners hasName f cits).rows
        = f.rows.map (fun r => searchOwnersRow hasName cits { r with links := Val.str [] }))) ∧
    (∀ out : Frame α, searchTopics f cits = .ok out →
      out.hasLinks = true ∧ List.Forall₂ framePres f.rows out.rows) := by
  refine ⟨⟨rfl, (frame_of_preserving _ (searchVesselsRow_frame cits) f).1,
      (frame_of_preserving _ (searchVesselsRow_frame cits) f).2⟩,
    ⟨rfl, (frame_of_preserving _ (searchPlantsRow_frame cits) f).1,
      (frame_of_preserving _ (searchPlantsRow_frame cits) f).2⟩,
    ⟨rfl, (frame_of_preserving _ (searchOwnersRow_frame hasName cits) f).1,
      (frame_of_preserving _ (searchOwnersRow_frame hasName cits) f).2⟩, ?_⟩
  intro out h
  unfold searchTopics at h
  split at h
  · exact Except.noConfusion h
  · next rows' heq =>
    injection h with h2
    subst h2
    refine ⟨rfl, ?_⟩
    have hfa : List.Forall₂ framePres (initRows f) rows' :=
      (mapExcept_ok _ heq).imp fun a b hab => searchTopicsRow_frame cits a b hab
    unfold initRows at hfa
    split at hfa
    · exact hfa
    · rw [List.forall₂_map_left_iff] at hfa
      exact hfa.imp fun a b hab => ⟨hab.1, hab.2⟩

/-- C10 counterexample: the claim quantifies over every
`search_*_in_content` function, but `search_topics_in_content` does not
even return a DataFrame on a row whose name cell is NaN —
`row['Topic'].lower()` raises `AttributeError` — so no output frame with
the claimed shape exists for this input. -/
theorem c10_counterexample :
    searchTopics (⟨true, [⟨Val.nan, Val.nan, ()⟩]⟩ : Frame Unit) [] = .error () := rfl

/-- Witness for C10 (amended): the three total variants at a one-row frame
missing the links column, and the topics variant at a frame on which it
succeeds. -/
theorem c10_witness :
    (searchVessels (⟨false, [⟨Val.str "a".data, Val.nan, ()⟩]⟩ : Frame Unit) []).rows
      = [searchVesselsRow [] ⟨Val.str "a".data, Val.str [], ()⟩] ∧
    (searchPlants (⟨false, [⟨Val.str "a".data, Val.nan, ()⟩]⟩ : Frame Unit) []).rows
      = [searchPlantsRow [] ⟨Val.str "a".data, Val.str [], ()⟩] ∧
    (searchVesselOwners true (⟨false, [⟨Val.str "a".data, Val.nan, ()⟩]⟩ : Frame Unit) []).rows
      = [searchOwnersRow true [] ⟨Val.str "a".data, Val.str [], ()⟩] ∧
    ∃ out : Frame Unit,
      searchTopics (⟨true, [⟨Val.str "a".data, Val.str [], ()⟩]⟩ : Frame Unit) [] = .ok out
        ∧ out.hasLinks = true := by
  have h := c10_frame_all Unit ⟨false, [⟨Val.str "a".data, Val.nan, ()⟩]⟩ [] true
  have h2 := c10_frame_all Unit ⟨true, [⟨Val.str "a".data, Val.str [], ()⟩]⟩ [] true
  refine ⟨?_, ?_, ?_, ?_⟩
  · rw [h.1.2.2 rfl]; rfl
  · rw [h.2.1.2.2 rfl]; rfl
  · rw [h.2.2.1.2.2 rfl]; rfl
  · exact ⟨⟨true, [⟨Val.str "a".data, Val.str [], ()⟩]⟩, rfl,
      (h2.2.2.2 ⟨true, [⟨Val.str "a".data, Val.str [], ()⟩]⟩ rfl).1⟩

end FishScrape
